import Mathlib

set_option maxRecDepth 8000

/-- Whitespace test used throughout the embedding (JS trim and the character
class matched by the backslash-s regex, restricted to the characters the
repository actually handles). -/
def isWsChar (c : Char) : Bool := c.isWhitespace

/-- Sentence terminator class of the chunker regex, the characters in brackets
of the split at the top of createTextChunks. -/
def isTermChar (c : Char) : Bool := c == '.' || c == '!' || c == '?'

/-- Embedding of JS String.prototype.trim on character lists. -/
def trimChars (s : List Char) : List Char :=
  ((s.dropWhile isWsChar).reverse.dropWhile isWsChar).reverse

/-- Split a character list at every character satisfying p, keeping empty
pieces.  The source splits on a one-or-more regex over the same class, which
differs from this character-wise split only by extra empty pieces between and
around adjacent separator characters; both call sites filter those empty (or
all-whitespace) pieces away immediately, so after that filter the two splits
agree. -/
def splitBy (p : Char → Bool) : List Char → List (List Char)
  | [] => [[]]
  | c :: cs =>
    let r := splitBy p cs
    if p c then [] :: r
    else (c :: r.headD []) :: r.tail

/-- Separator the chunker inserts between sentences accumulated into one chunk
(the dot-space string prepended when currentChunk is truthy). -/
def sentenceSep (cur : List Char) : List Char := if cur.isEmpty then [] else ['.', ' ']

/-- Separator the chunker inserts between words accumulated into one word
chunk (the space prepended when wordChunk is truthy). -/
def wordSep (wc : List Char) : List Char := if wc.isEmpty then [] else [' ']

/-- Inner word loop of createTextChunks (process-document/index.ts lines
437 to 451): fold over the words of an oversized sentence, flushing the
running word chunk when appending the next word would pass the bound, and
always appending the word afterwards.  Returns the chunk list and the
leftover word chunk. -/
def wordLoop (maxSize : Nat) : List (List Char) → List (List Char) → List Char → List (List Char) × List Char
  | [], chunks, wordChunk => (chunks, wordChunk)
  | w :: ws, chunks, wordChunk =>
    if wordChunk.length + w.length + 1 > maxSize then
      if wordChunk.isEmpty then wordLoop maxSize ws chunks w
      else wordLoop maxSize ws (chunks ++ [trimChars wordChunk]) w
    else wordLoop maxSize ws chunks (wordChunk ++ wordSep wordChunk ++ w)

/-- Outer sentence loop of createTextChunks (lines 424 to 458): accumulate
trimmed sentences joined by dot-space; when the next sentence would pass the
bound, flush the current chunk, and word-split the sentence when it alone
passes the bound, keeping the leftover word chunk as the new current chunk. -/
def sentLoop (maxSize : Nat) : List (List Char) → List (List Char) → List Char → List (List Char) × List Char
  | [], chunks, cur => (chunks, cur)
  | s :: ss, chunks, cur =>
    let t := trimChars s
    if t.isEmpty then sentLoop maxSize ss chunks cur
    else if cur.length + t.length + 1 > maxSize then
      let chunks1 := if cur.isEmpty then chunks else chunks ++ [trimChars cur]
      if t.length > maxSize then
        let r := wordLoop maxSize (splitBy (fun c => c == ' ') t) chunks1 []
        sentLoop maxSize ss r.1 r.2
      else sentLoop maxSize ss chunks1 t
    else sentLoop maxSize ss chunks (cur ++ sentenceSep cur ++ t)

/-- Embedding of createTextChunks (process-document/index.ts lines 418 to
465): split the text into sentences at terminator characters, drop pieces
that trim to nothing, run the sentence loop, and flush a trailing chunk whose
trim is nonempty. -/
def createTextChunks (text : List Char) (maxChunkSize : Nat) : List (List Char) :=
  let sentences := (splitBy isTermChar text).filter (fun s => !(trimChars s).isEmpty)
  let r := sentLoop maxChunkSize sentences [] []
  if (trimChars r.2).isEmpty then r.1 else r.1 ++ [trimChars r.2]

/-- Concatenation of a list of lists, used to state the chunk reassembly
invariant. -/
def concatAll {α : Type} : List (List α) → List α
  | [] => []
  | l :: ls => l ++ concatAll ls

/-- The characters of a string that are neither whitespace nor sentence
terminators; the content the chunker is meant to preserve. -/
def keepContent (s : List Char) : List Char :=
  s.filter (fun c => !isWsChar c && !isTermChar c)

example : createTextChunks ('H' :: 'e' :: 'l' :: 'l' :: 'o' :: ' ' :: 'w' :: 'o' :: 'r' :: 'l' :: 'd' :: '.' :: ' ' :: 'T' :: 'h' :: 'i' :: 's' :: ' ' :: 'i' :: 's' :: ' ' :: 'a' :: ' ' :: 't' :: 'e' :: 's' :: 't' :: '.' :: []) 15 =
    [('H' :: 'e' :: 'l' :: 'l' :: 'o' :: ' ' :: 'w' :: 'o' :: 'r' :: 'l' :: 'd' :: []),
     ('T' :: 'h' :: 'i' :: 's' :: ' ' :: 'i' :: 's' :: ' ' :: 'a' :: ' ' :: 't' :: 'e' :: 's' :: 't' :: [])] := by decide

example : createTextChunks ('a' :: 'b' :: '.' :: 'c' :: 'd' :: []) 5 =
    [('a' :: 'b' :: '.' :: ' ' :: 'c' :: 'd' :: [])] := by decide

example : createTextChunks ('a' :: 'b' :: 'c' :: 'd' :: 'e' :: 'f' :: ' ' :: 'g' :: 'h' :: []) 5 =
    [('a' :: 'b' :: 'c' :: 'd' :: 'e' :: 'f' :: []), ('g' :: 'h' :: [])] := by decide

theorem concatAll_append {α : Type} (l₁ l₂ : List (List α)) :
    concatAll (l₁ ++ l₂) = concatAll l₁ ++ concatAll l₂ := by
  induction l₁ with
  | nil => simp [concatAll]
  | cons h t ih => simp [concatAll, ih]

theorem concatAll_headD_tail {α : Type} (l : List (List α)) :
    l.head?.getD [] ++ concatAll l.tail = concatAll l := by
  cases l <;> simp [concatAll]

theorem concatAll_splitBy (p : Char → Bool) (l : List Char) :
    concatAll (splitBy p l) = l.filter (fun c => !(p c)) := by
  induction l with
  | nil => simp [splitBy, concatAll]
  | cons c cs ih =>
    simp only [splitBy, List.filter_cons]
    by_cases h : p c
    · simp [h, concatAll, ih]
    · simp only [h]
      simp [concatAll]
      rw [concatAll_headD_tail]
      exact ih

theorem keepContent_append (a b : List Char) :
    keepContent (a ++ b) = keepContent a ++ keepContent b := by
  simp [keepContent, List.filter_append]

theorem keepContent_filter (q : Char → Bool)
    (h : ∀ c, q c = false → (!isWsChar c && !isTermChar c) = false) (l : List Char) :
    keepContent (l.filter q) = keepContent l := by
  induction l with
  | nil => rfl
  | cons c cs ih =>
    by_cases hq : q c
    · simp only [List.filter_cons, hq, if_pos]
      simp only [keepContent, List.filter_cons] at *
      by_cases hk : (!isWsChar c && !isTermChar c)
      · simp [hk, ih]
      · simp only [Bool.not_eq_true] at hk
        simp [hk, ih]
    · simp only [Bool.not_eq_true] at hq
      have hk := h c hq
      simp only [List.filter_cons, hq]
      simp only [keepContent, List.filter_cons, hk] at *
      simp [ih]

theorem keepContent_concatAll (L : List (List Char)) :
    keepContent (concatAll L) = concatAll (L.map keepContent) := by
  induction L with
  | nil => rfl
  | cons l ls ih => simp [concatAll, keepContent_append, ih]

theorem keepContent_dropWhileWs (l : List Char) :
    keepContent (l.dropWhile isWsChar) = keepContent l := by
  induction l with
  | nil => rfl
  | cons c cs ih =>
    by_cases h : isWsChar c
    · have hk : (!isWsChar c && !isTermChar c) = false := by simp [h]
      simp only [List.dropWhile_cons, h, if_pos, ite_true]
      rw [ih]
      simp [keepContent, List.filter_cons, hk]
    · simp [List.dropWhile_cons, h]

theorem keepContent_reverse (l : List Char) :
    keepContent (l.reverse) = (keepContent l).reverse := by
  simp [keepContent, List.filter_reverse]

theorem keepContent_trim (s : List Char) :
    keepContent (trimChars s) = keepContent s := by
  unfold trimChars
  rw [keepContent_reverse, keepContent_dropWhileWs, keepContent_reverse,
    List.reverse_reverse, keepContent_dropWhileWs]

theorem trim_empty_keep (s : List Char) (h : (trimChars s).isEmpty = true) :
    keepContent s = [] := by
  rw [← keepContent_trim]
  rw [List.isEmpty_iff] at h
  simp [h, keepContent]

theorem keep_sentenceSep (cur : List Char) : keepContent (sentenceSep cur) = [] := by
  unfold sentenceSep; split <;> decide

theorem keep_wordSep (wc : List Char) : keepContent (wordSep wc) = [] := by
  unfold wordSep; split <;> decide

theorem concatAll_map_keep_filter (L : List (List Char)) :
    concatAll ((L.filter (fun s => !(trimChars s).isEmpty)).map keepContent) =
      concatAll (L.map keepContent) := by
  induction L with
  | nil => rfl
  | cons s ss ih =>
    by_cases h : (trimChars s).isEmpty
    · have hs : keepContent s = [] := trim_empty_keep _ h
      simp [List.filter_cons, h, concatAll, hs, ih]
    · simp [List.filter_cons, h, concatAll, ih]

theorem wordLoop_keep (m : Nat) (ws : List (List Char)) :
    ∀ chunks wc,
      keepContent (concatAll (wordLoop m ws chunks wc).1) ++ keepContent (wordLoop m ws chunks wc).2 =
        keepContent (concatAll chunks) ++ (keepContent wc ++ concatAll (ws.map keepContent)) := by
  induction ws with
  | nil => intro chunks wc; simp [wordLoop, concatAll]
  | cons w ws ih =>
    intro chunks wc
    simp only [wordLoop]
    by_cases h1 : wc.length + w.length + 1 > m
    · by_cases h2 : wc.isEmpty
      · have hwc : wc = [] := by simpa [List.isEmpty_iff] using h2
        simp only [h1, h2, if_pos, ite_true]
        rw [ih]
        simp [hwc, concatAll, keepContent]
      · simp only [h1, h2, if_pos, ite_true, ite_false, Bool.false_eq_true, if_false]
        rw [ih]
        simp [concatAll_append, keepContent_append, keepContent_trim, concatAll,
          List.append_assoc]
    · simp only [h1, ite_false, if_false]
      rw [ih]
      simp [keepContent_append, keep_wordSep, concatAll, List.append_assoc]

theorem sentLoop_keep (m : Nat) (ss : List (List Char)) :
    ∀ chunks cur,
      keepContent (concatAll (sentLoop m ss chunks cur).1) ++ keepContent (sentLoop m ss chunks cur).2 =
        keepContent (concatAll chunks) ++ (keepContent cur ++ concatAll (ss.map keepContent)) := by
  induction ss with
  | nil => intro chunks cur; simp [sentLoop, concatAll]
  | cons s ss ih =>
    intro chunks cur
    simp only [sentLoop]
    have hch : ∀ chunks cur,
        keepContent (concatAll (if cur.isEmpty then chunks else chunks ++ [trimChars cur])) =
          keepContent (concatAll chunks) ++ keepContent cur := by
      intro chunks cur
      by_cases hc : cur.isEmpty
      · have : cur = [] := by simpa [List.isEmpty_iff] using hc
        simp [hc, this, keepContent]
      · simp [hc, concatAll_append, keepContent_append, keepContent_trim, concatAll]
    by_cases h0 : (trimChars s).isEmpty
    · have hs : keepContent s = [] := trim_empty_keep s h0
      rw [if_pos h0, ih]
      simp [hs, concatAll]
    · rw [if_neg h0]
      by_cases h1 : cur.length + (trimChars s).length + 1 > m
      · by_cases h2 : (trimChars s).length > m
        · rw [if_pos h1, if_pos h2, ih]
          have hw := wordLoop_keep m (splitBy (fun c => c == ' ') (trimChars s))
            (if cur.isEmpty then chunks else chunks ++ [trimChars cur]) []
          have hsplit : concatAll ((splitBy (fun c => c == ' ') (trimChars s)).map keepContent) =
              keepContent s := by
            rw [← keepContent_concatAll, concatAll_splitBy]
            rw [keepContent_filter _ (fun c hc => by
              cases hcc : (c == ' ') with
              | false => simp [hcc] at hc
              | true =>
                have hce : c = ' ' := by simpa using hcc
                subst hce
                decide)]
            exact keepContent_trim s
          rw [← List.append_assoc, hw, hch, hsplit]
          simp [keepContent, concatAll, List.append_assoc]
        · rw [if_pos h1, if_neg h2, ih, hch]
          simp [keepContent_trim, concatAll, List.append_assoc]
      · rw [if_neg h1, ih]
        simp [keepContent_append, keep_sentenceSep, keepContent_trim, concatAll,
          List.append_assoc]

theorem createTextChunks_keep_eq (text : List Char) (m : Nat) :
    keepContent (concatAll (createTextChunks text m)) =
      concatAll (((splitBy isTermChar text).filter (fun s => !(trimChars s).isEmpty)).map keepContent) := by
  simp only [createTextChunks]
  generalize (splitBy isTermChar text).filter (fun s => !(trimChars s).isEmpty) = S
  have hmain := sentLoop_keep m S [] []
  simp only [concatAll, keepContent, List.filter_nil, List.nil_append] at hmain
  by_cases hend : (trimChars (sentLoop m S [] []).2).isEmpty
  · have h2 : keepContent (sentLoop m S [] []).2 = [] := by
      rw [← keepContent_trim]
      rw [List.isEmpty_iff] at hend
      simp [hend, keepContent]
    simp only [hend, if_pos, ite_true]
    rw [← hmain]
    simp only [keepContent] at h2
    simp [keepContent, h2]
  · simp only [hend, ite_false, Bool.false_eq_true, if_false]
    rw [concatAll_append]
    simp only [concatAll, List.append_nil]
    rw [keepContent_append, keepContent_trim]
    exact hmain

/-- Scenario A text from the spec, used as a concrete witness input. -/
def scenarioAText : List Char :=
  'H' :: 'e' :: 'l' :: 'l' :: 'o' :: ' ' :: 'w' :: 'o' :: 'r' :: 'l' :: 'd' :: '.' :: ' ' ::
  'T' :: 'h' :: 'i' :: 's' :: ' ' :: 'i' :: 's' :: ' ' :: 'a' :: ' ' :: 't' :: 'e' :: 's' :: 't' :: '.' :: []

/-- C1 (amended): for every input text and maxSize at least 1, concatenating
the chunks of createTextChunks and discarding whitespace and the separator
characters the chunker inserts reproduces, in order, every character of the
input that is neither whitespace nor one of the sentence terminator
characters.  Amendment: the terminator characters of the input are consumed
by the sentence split and are not reproduced, so they are excluded on the
input side as well. -/
theorem chunker_preserves_content (text : List Char) (maxSize : Nat) (hm : 1 ≤ maxSize) :
    keepContent (concatAll (createTextChunks text maxSize)) = keepContent text := by
  rw [createTextChunks_keep_eq, concatAll_map_keep_filter, ← keepContent_concatAll,
    concatAll_splitBy]
  exact keepContent_filter _ (fun c hc => by
    cases hct : isTermChar c with
    | false => simp [hct] at hc
    | true => simp [hct]) text

/-- Witness for C1 at the Scenario A text of the spec with maxSize 15. -/
theorem chunker_preserves_content_witness :
    1 ≤ 15 ∧ keepContent (concatAll (createTextChunks scenarioAText 15)) = keepContent scenarioAText :=
  ⟨by decide, chunker_preserves_content scenarioAText 15 (by decide)⟩

/-- C1 counterexample: on the two-character input consisting of a and an
exclamation mark, with maxSize 5, the chunker returns the single chunk a;
even ignoring the dot and space separator characters the chunker itself
inserts, the non-whitespace exclamation mark of the input is not reproduced,
so the claim as stated is false. -/
theorem chunker_preserves_content_counterexample :
    ¬ ((concatAll (createTextChunks ('a' :: '!' :: []) 5)).filter
        (fun c => !isWsChar c && !(c == '.')) =
       ('a' :: '!' :: []).filter (fun c => !isWsChar c)) := by decide

/-- The amended per-chunk size bound: at most maxSize plus one, except for a
chunk with no space in it (a single word of an oversized sentence), which can
be arbitrarily long. -/
def chunkOk (m : Nat) (ch : List Char) : Prop := ch.length ≤ m + 1 ∨ ' ' ∉ ch

theorem length_dropWhile_le_chars (l : List Char) :
    (l.dropWhile isWsChar).length ≤ l.length := by
  induction l with
  | nil => simp
  | cons c cs ih =>
    by_cases h : isWsChar c
    · rw [List.dropWhile_cons, if_pos h]
      simp only [List.length_cons]
      omega
    · rw [List.dropWhile_cons, if_neg h]

theorem trim_length_le (s : List Char) : (trimChars s).length ≤ s.length := by
  unfold trimChars
  rw [List.length_reverse]
  calc ((s.dropWhile isWsChar).reverse.dropWhile isWsChar).length
      ≤ (s.dropWhile isWsChar).reverse.length := length_dropWhile_le_chars _
    _ = (s.dropWhile isWsChar).length := List.length_reverse _
    _ ≤ s.length := length_dropWhile_le_chars s

theorem mem_dropWhile_chars {c : Char} {l : List Char} (h : c ∈ l.dropWhile isWsChar) :
    c ∈ l := by
  induction l with
  | nil => simpa using h
  | cons a as ih =>
    by_cases ha : isWsChar a
    · rw [List.dropWhile_cons, if_pos ha] at h
      exact List.mem_cons_of_mem a (ih h)
    · rw [List.dropWhile_cons, if_neg ha] at h
      exact h

theorem mem_trim {c : Char} {s : List Char} (h : c ∈ trimChars s) : c ∈ s := by
  unfold trimChars at h
  rw [List.mem_reverse] at h
  have h1 := mem_dropWhile_chars h
  rw [List.mem_reverse] at h1
  exact mem_dropWhile_chars h1

theorem splitBy_no_sep (p : Char → Bool) (l : List Char) :
    ∀ w ∈ splitBy p l, ∀ c ∈ w, p c = false := by
  induction l with
  | nil =>
    intro w hw c hc
    simp only [splitBy, List.mem_singleton] at hw
    subst hw
    simp at hc
  | cons a as ih =>
    intro w hw c hc
    simp only [splitBy] at hw
    by_cases ha : p a
    · rw [if_pos ha] at hw
      rcases List.mem_cons.mp hw with h | h
      · subst h; simp at hc
      · exact ih w h c hc
    · rw [if_neg ha] at hw
      rcases List.mem_cons.mp hw with h | h
      · subst h
        rcases List.mem_cons.mp hc with h2 | h2
        · subst h2
          simpa using ha
        · cases hr : splitBy p as with
          | nil => rw [hr] at h2; simp at h2
          | cons x xs =>
            rw [hr] at h2
            simp only [List.headD_cons] at h2
            exact ih x (by rw [hr]; exact List.mem_cons_self x xs) c h2
      · cases hr : splitBy p as with
        | nil => rw [hr] at h; simp at h
        | cons x xs =>
          rw [hr] at h
          simp only [List.tail_cons] at h
          exact ih w (by rw [hr]; exact List.mem_cons_of_mem x h) c hc

theorem wordLoop_ok (m : Nat) (ws : List (List Char)) :
    ∀ chunks wc,
      (∀ ch ∈ chunks, chunkOk m ch) →
      (wc.length ≤ m ∨ ' ' ∉ wc) →
      (∀ w ∈ ws, ' ' ∉ w) →
      (∀ ch ∈ (wordLoop m ws chunks wc).1, chunkOk m ch) ∧
        ((wordLoop m ws chunks wc).2.length ≤ m ∨ ' ' ∉ (wordLoop m ws chunks wc).2) := by
  induction ws with
  | nil =>
    intro chunks wc hc hw _
    simp only [wordLoop]
    exact ⟨hc, hw⟩
  | cons w ws ih =>
    intro chunks wc hc hw hws
    have hwmem : ' ' ∉ w := hws w (List.mem_cons_self w ws)
    have hws' : ∀ u ∈ ws, ' ' ∉ u := fun u hu => hws u (List.mem_cons_of_mem w hu)
    simp only [wordLoop]
    by_cases h1 : wc.length + w.length + 1 > m
    · by_cases h2 : wc.isEmpty
      · rw [if_pos h1, if_pos h2]
        exact ih chunks w hc (Or.inr hwmem) hws'
      · rw [if_pos h1, if_neg h2]
        apply ih _ w _ (Or.inr hwmem) hws'
        intro ch hch
        rcases List.mem_append.mp hch with h | h
        · exact hc ch h
        · have hcheq : ch = trimChars wc := by simpa using h
          subst hcheq
          rcases hw with hlen | hsp
          · exact Or.inl (le_trans (trim_length_le wc) (by omega))
          · exact Or.inr (fun hmem => hsp (mem_trim hmem))
    · rw [if_neg h1]
      apply ih chunks _ hc _ hws'
      left
      by_cases h2 : wc.isEmpty
      · have hwc : wc = [] := by simpa [List.isEmpty_iff] using h2
        subst hwc
        simp [wordSep]
        omega
      · simp [wordSep, h2, List.length_append]
        omega

theorem sentLoop_ok (m : Nat) (ss : List (List Char)) :
    ∀ chunks cur,
      (∀ ch ∈ chunks, chunkOk m ch) → chunkOk m cur →
      (∀ ch ∈ (sentLoop m ss chunks cur).1, chunkOk m ch) ∧
        chunkOk m (sentLoop m ss chunks cur).2 := by
  induction ss with
  | nil =>
    intro chunks cur hc hcur
    simp only [sentLoop]
    exact ⟨hc, hcur⟩
  | cons s ss ih =>
    intro chunks cur hc hcur
    simp only [sentLoop]
    have hch1 : ∀ ch ∈ (if cur.isEmpty then chunks else chunks ++ [trimChars cur]), chunkOk m ch := by
      by_cases hce : cur.isEmpty
      · rw [if_pos hce]; exact hc
      · rw [if_neg hce]
        intro ch hch
        rcases List.mem_append.mp hch with h | h
        · exact hc ch h
        · have hcheq : ch = trimChars cur := by simpa using h
          subst hcheq
          rcases hcur with hlen | hsp
          · exact Or.inl (le_trans (trim_length_le cur) hlen)
          · exact Or.inr (fun hmem => hsp (mem_trim hmem))
    by_cases h0 : (trimChars s).isEmpty
    · rw [if_pos h0]; exact ih chunks cur hc hcur
    · rw [if_neg h0]
      by_cases h1 : cur.length + (trimChars s).length + 1 > m
      · by_cases h2 : (trimChars s).length > m
        · rw [if_pos h1, if_pos h2]
          have hnosp : ∀ w ∈ splitBy (fun c => c == ' ') (trimChars s), ' ' ∉ w := by
            intro w hwmem hsp
            have hfalse := splitBy_no_sep (fun c => c == ' ') (trimChars s) w hwmem ' ' hsp
            simp at hfalse
          have hwl := wordLoop_ok m (splitBy (fun c => c == ' ') (trimChars s))
            (if cur.isEmpty then chunks else chunks ++ [trimChars cur]) [] hch1
            (Or.inl (by simp)) hnosp
          exact ih _ _ hwl.1 (hwl.2.elim (fun h => Or.inl (by omega)) Or.inr)
        · rw [if_pos h1, if_neg h2]
          exact ih _ _ hch1 (Or.inl (by omega))
      · rw [if_neg h1]
        apply ih chunks _ hc
        left
        by_cases hce : cur.isEmpty
        · have hcur0 : cur = [] := by simpa [List.isEmpty_iff] using hce
          subst hcur0
          simp [sentenceSep]
          omega
        · simp [sentenceSep, hce, List.length_append]
          omega

/-- C2 (amended): for every input text and maxSize at least 1, every chunk of
createTextChunks has length at most maxSize plus one, except a chunk that
contains no space character (a single word of an oversized sentence), which
may exceed the bound.  Amendment: the bound is maxSize plus one rather than
maxSize, because the chunker checks the bound with a one-character separator
but joins sentences with the two-character dot-space separator; and an
oversized flushed chunk is characterised as containing no space. -/
theorem chunk_length_bound (text : List Char) (maxSize : Nat) (hm : 1 ≤ maxSize) :
    ∀ ch ∈ createTextChunks text maxSize, ch.length ≤ maxSize + 1 ∨ ' ' ∉ ch := by
  intro ch hch
  simp only [createTextChunks] at hch
  generalize hS : (splitBy isTermChar text).filter (fun s => !(trimChars s).isEmpty) = S at hch
  have h := sentLoop_ok maxSize S [] [] (by intro x hx; simp at hx) (Or.inl (by simp))
  generalize hr : sentLoop maxSize S [] [] = r at hch h
  by_cases hend : (trimChars r.2).isEmpty
  · rw [if_pos hend] at hch
    exact h.1 ch hch
  · rw [if_neg hend] at hch
    rcases List.mem_append.mp hch with hm1 | hm1
    · exact h.1 ch hm1
    · have hcheq : ch = trimChars r.2 := by simpa using hm1
      subst hcheq
      rcases h.2 with hlen | hsp
      · exact Or.inl (le_trans (trim_length_le _) hlen)
      · exact Or.inr (fun hmem => hsp (mem_trim hmem))

/-- Witness for C2 at the Scenario A text of the spec with maxSize 15. -/
theorem chunk_length_bound_witness :
    1 ≤ 15 ∧ ∀ ch ∈ createTextChunks scenarioAText 15, ch.length ≤ 16 ∨ ' ' ∉ ch :=
  ⟨by decide, fun ch h => chunk_length_bound scenarioAText 15 (by decide) ch h⟩

/-- C2 counterexample: on the five-character input ab.cd with maxSize 5, the
single returned chunk is ab dot space cd, of length 6 exceeding maxSize; it
contains a space, so it is not a single word, and it is not one of the
sentences of the input (even after trimming), so the stated exception does
not cover it and the claim as stated is false. -/
theorem chunk_length_bound_counterexample :
    ∃ ch ∈ createTextChunks ('a' :: 'b' :: '.' :: 'c' :: 'd' :: []) 5,
      5 < ch.length ∧ ' ' ∈ ch ∧
        ch ∉ (splitBy isTermChar ('a' :: 'b' :: '.' :: 'c' :: 'd' :: [])).map trimChars := by
  decide

/-- Lowercasing as in JS toLowerCase, character-wise. -/
def toLowerL (s : List Char) : List Char := s.map Char.toLower

/-- True when the pattern list occurs at the start of the subject list; the
embedding of JS startsWith. -/
def leadsWith : List Char → List Char → Bool
  | [], _ => true
  | _ :: _, [] => false
  | a :: as, b :: bs => a == b && leadsWith as bs

/-- True when the pattern occurs as a contiguous sublist of the subject; the
embedding of JS includes. -/
def containsSub (pat : List Char) : List Char → Bool
  | [] => leadsWith pat []
  | c :: cs => leadsWith pat (c :: cs) || containsSub pat cs

/-- Keyword extraction of the chat function (part_001 line 62): lowercase the
message, split on the space character, keep tokens longer than 3
characters. -/
def keywordsOf (message : List Char) : List (List Char) :=
  (splitBy (fun c => c == ' ') (toLowerL message)).filter (fun w => decide (3 < w.length))

/-- Relevance test of the chat function (part_001 lines 63 to 67): a document
with falsy (empty) content is not selected; otherwise it is selected when its
lowercased content contains some keyword as a substring. -/
def docSelected (message content : List Char) : Bool :=
  if content.isEmpty then false
  else (keywordsOf message).any (fun k => containsSub k (toLowerL content))

/-- Specification-side tokens for the original wording of the selector claim:
the question split at every whitespace character (not only spaces), keeping
lowercased tokens longer than 3 characters. -/
def wsTokensOf (message : List Char) : List (List Char) :=
  (splitBy isWsChar (toLowerL message)).filter (fun w => decide (3 < w.length))

/-- One stored chat message row, with the role and content columns selected by
the history query. -/
structure MessageRow where
  role : String
  content : String
deriving DecidableEq

/-- The empty string, used wherever the source initialises with two quotes. -/
def emptyStr : String := ""

/-- The role string stored for user turns. -/
def roleUser : String := "user"

/-- The role string stored for assistant turns. -/
def roleAsst : String := "assistant"

/-- Label prefix for user lines in the history text. -/
def labelUser : String := "User: "

/-- Label prefix for assistant lines in the history text. -/
def labelAsst : String := "Assistant: "

/-- The blank-line separator joining history lines. -/
def blankSep : String := "\n\n"

/-- Formatting of one history line (part_001 line 39): role label then the
message content. -/
def msgLine (m : MessageRow) : String :=
  (if m.role = roleUser then labelUser else labelAsst) ++ m.content

/-- History text built by the chat function (part_001 lines 29 to 42): the
query orders by creation time ascending and limits to 10 rows, which takes
the FIRST ten messages of the conversation in ascending order; a nonempty
result list is formatted and joined by blank lines.  The argument is the
full message list of the conversation in ascending creation order. -/
def historyOf (msgs : List MessageRow) : String :=
  let sel := msgs.take 10
  if sel.isEmpty then emptyStr else String.intercalate blankSep (sel.map msgLine)

/-- Specification-side history for the claim: the LAST ten messages of the
conversation, still in ascending creation order. -/
def historyLastTenSpec (msgs : List MessageRow) : String :=
  let sel := msgs.drop (msgs.length - 10)
  if sel.isEmpty then emptyStr else String.intercalate blankSep (sel.map msgLine)

/-- An eleven-message conversation used as the failing input for the history
claim: message number i has the decimal numeral of i as content, roles
alternating starting with user. -/
def msgs11 : List MessageRow :=
  (List.range 11).map (fun i =>
    { role := if i % 2 = 0 then roleUser else roleAsst, content := Nat.repr i })

/-- C6 (amended): a document the selector considers is selected exactly when
its lowercased content contains, as a substring, at least one token of the
question longer than 3 characters, where tokens are obtained by splitting the
lowercased question at SPACE characters only.  Amendment: the code splits the
question on the space character, not on general whitespace as the claim
states. -/
theorem docSelected_iff (message content : List Char) :
    docSelected message content = true ↔
      ∃ k ∈ keywordsOf message, containsSub k (toLowerL content) = true := by
  unfold docSelected
  by_cases hce : content.isEmpty
  · rw [if_pos hce]
    constructor
    · intro hfalse; cases hfalse
    · rintro ⟨k, hk, hsub⟩
      have hklen : 3 < k.length := by
        have hmem := (List.mem_filter.mp hk).2
        simpa using hmem
      have hc0 : content = [] := by simpa [List.isEmpty_iff] using hce
      subst hc0
      cases k with
      | nil => simp at hklen
      | cons a as => simp [containsSub, leadsWith, toLowerL] at hsub
  · rw [if_neg hce]
    exact List.any_eq_true

/-- C6 counterexample: the question consisting of ab, a newline, and cd has no
whitespace-delimited token longer than 3 characters, so under the claim no
document may be selected for it; yet the code, splitting at spaces only,
forms the 5-character keyword ab-newline-cd and selects a document whose
content contains it. -/
theorem docSelected_counterexample :
    wsTokensOf ('a' :: 'b' :: '\n' :: 'c' :: 'd' :: []) = [] ∧
      docSelected ('a' :: 'b' :: '\n' :: 'c' :: 'd' :: [])
        ('x' :: 'a' :: 'b' :: '\n' :: 'c' :: 'd' :: 'y' :: []) = true := by decide

/-- C3: the history query orders by creation time ascending and then limits to
10 rows, so it takes the FIRST ten messages of the conversation; on an
eleven-message conversation the produced history text differs from the text
built from the last ten messages that the claim (and the inline comment of
the code itself) describe. -/
theorem history_first_ten_divergence :
    historyOf msgs11 ≠ historyLastTenSpec msgs11 := by decide

/-- MIME type handled as plain text by the extractor dispatch. -/
def mimeTextPlain : String := "text/plain"

/-- MIME type handled by the PDF extractor. -/
def mimePdf : String := "application/pdf"

/-- MIME type handled by the DOCX extractor. -/
def mimeDocx : String := "application/vnd.openxmlformats-officedocument.wordprocessingml.document"

/-- MIME type handled by the PPTX extractor. -/
def mimePptx : String := "application/vnd.openxmlformats-officedocument.presentationml.presentation"

/-- Prefix tested by the image branch of the dispatch. -/
def mimeImagePre : String := "image/"

/-- Prefix of the fallback string for unrecognized MIME types. -/
def unsupportedPre : String := "Unsupported file type: "

/-- Prefix of the error thrown on a storage download failure. -/
def downloadFailPre : String := "Failed to download file: "

/-- Prefix of the error thrown on a document-update failure. -/
def updateFailPre : String := "Failed to update document: "

/-- The error field of the soft-failure response body. -/
def extractionFailedMsg : String := "Text extraction failed"

/-- The blob returned by storage download; the model only needs its byte
size, which the PPTX and image placeholder extractors embed in their
guidance strings. -/
structure FileData where
  size : Nat
deriving DecidableEq

/-- Opening of the PPTX guidance template (index.ts line 397), up to the file
size in KB. -/
def pptxGuideA : String := "PowerPoint file: PPTX ("

/-- Remainder of the PPTX guidance template after the file size. -/
def pptxGuideB : String := "KB)\n\nPPTX files contain rich formatting and multimedia content that requires specialized processing.\n\nFor text extraction from PowerPoint files, please:\n1. Save/export the presentation as PDF from PowerPoint\n2. Copy and paste text content into a text file\n3. Use PowerPoint\x27s \"Save as Text\" option if available\n\nAlternatively, upload individual slides as images for OCR processing."

/-- Opening of the image guidance template (index.ts line 411), up to the
file name. -/
def imageGuideA : String := "Image file: "

/-- Middle of the image guidance template, between file name and size. -/
def imageGuideB : String := " ("

/-- Remainder of the image guidance template after the file size. -/
def imageGuideC : String := "KB)\n\nThis is an image file. For text extraction from images, consider:\n1. Using OCR tools like Google Vision API\n2. Converting the image to PDF with embedded text\n3. Manually transcribing important text content\n\nIf this image contains charts, diagrams, or handwritten text, please provide a text description of the content."

/-- Embedding of extractPptxText (index.ts lines 389 to 402): a fixed
guidance string embedding the file size in KB; the JS Math.round of size
over 1024 equals the floor of (size + 512) over 1024 on natural sizes.
The function never throws: its try body is total. -/
def extractPptxText (fd : FileData) : String :=
  pptxGuideA ++ Nat.repr ((fd.size + 512) / 1024) ++ pptxGuideB

/-- Embedding of extractImageText (index.ts lines 404 to 416): a fixed
guidance string embedding the file name and size in KB; never throws. -/
def extractImageText (fd : FileData) (fileName : String) : String :=
  imageGuideA ++ fileName ++ imageGuideB ++ Nat.repr ((fd.size + 512) / 1024) ++ imageGuideC

/-- Environment of one ingest invocation: the outcomes of the external
collaborator calls the handler makes, in the order it makes them.  The PDF
and DOCX extractors call external parsing libraries but catch every error
internally and always return a string, so their results are environment
strings here; the text branch awaits the blob text decoding, which can
reject, so its outcome is an Except. -/
structure IngestEnv where
  downloadErr : Option String
  fileData : FileData
  textDecode : Except String String
  pdfResult : String
  docxResult : String
  updateErr : Option String
  softUpdateApplied : Bool
  chunkInsertErr : Option String
  now : String

/-- The JSON request body of the ingest operation. -/
structure IngestReq where
  documentId : String
  filePath : String
  fileName : String
  fileType : String

/-- The metadata JSON column of a Document row, with every key that any code
path of the repository ever writes. -/
structure Metadata where
  processed : Option Bool := none
  processed_at : Option String := none
  word_count : Option Nat := none
  processing_error : Option String := none
  original_name : Option String := none
  storage_path : Option String := none
deriving DecidableEq

/-- A Document row with the columns the core reads or writes. -/
structure DocRecord where
  id : String
  user_id : String
  title : String
  file_name : String
  file_type : String
  file_size : Nat
  content : Option String := none
  metadata : Metadata := {}
deriving DecidableEq

/-- A document_chunks row as built by the chunk insert (index.ts lines 281 to
288): document id, chunk text, and the chunk_index and chunk_size metadata. -/
structure ChunkRow where
  document_id : String
  content : List Char
  chunk_index : Nat
  chunk_size : Nat
deriving DecidableEq

/-- Body of the HTTP response of the ingest operation. -/
inductive RespBody
  | okBody (documentId : String) (extractedLength : Nat) (chunksCreated : Nat)
  | softFailBody (error details : String)
  | hardFailBody (error : String)
deriving DecidableEq

/-- An HTTP response: status code and JSON body. -/
structure HttpResp where
  status : Nat
  body : RespBody
deriving DecidableEq

/-- The document record created at upload time (part_000 lines 54 to 70):
null content, metadata holding only the original name and storage path. -/
def uploadDoc (docId userId origName storedName fType : String) (fSize : Nat)
    (path : String) : DocRecord :=
  { id := docId, user_id := userId, title := origName, file_name := storedName,
    file_type := fType, file_size := fSize, content := none,
    metadata := { original_name := some origName, storage_path := some path } }

/-- Metadata written by the success update (index.ts lines 264 to 268): the
whole metadata object is replaced by these three keys. -/
def successMeta (now : String) (wc : Nat) : Metadata :=
  { processed := some true, processed_at := some now, word_count := some wc }

/-- Metadata written by the catch-block update (index.ts lines 317 to 322):
the whole metadata object is replaced by these three keys. -/
def failMeta (msg now : String) : Metadata :=
  { processed := some false, processing_error := some msg, processed_at := some now }

/-- Helper for the JS split on one-or-more whitespace: walk the characters,
closing a piece at the start of each whitespace run; a trailing run closes a
final empty piece, matching the JS regex split. -/
def splitRunsWsAux : List Char → List Char → Bool → List (List Char)
  | [], cur, _ => [cur.reverse]
  | c :: cs, cur, inWs =>
    if isWsChar c then
      if inWs then splitRunsWsAux cs cur true
      else cur.reverse :: splitRunsWsAux cs [] true
    else splitRunsWsAux cs (c :: cur) false

/-- The word_count the success update stores (index.ts line 267): the length
of the JS split of the extracted text on one-or-more whitespace. -/
def jsWordCount (t : List Char) : Nat := (splitRunsWsAux t [] false).length

/-- The extractor dispatch (index.ts lines 240 to 255).  An error value is an
exception escaping into the catch block; only the plain-text branch can
produce one, because every other extractor catches internally and returns a
string. -/
def extractTextStep (env : IngestEnv) (fileType fileName : String) : Except String String :=
  if fileType = mimeTextPlain then env.textDecode
  else if fileType = mimePdf then Except.ok env.pdfResult
  else if fileType = mimeDocx then Except.ok env.docxResult
  else if fileType = mimePptx then Except.ok (extractPptxText env.fileData)
  else if leadsWith mimeImagePre.toList fileType.toList then
    Except.ok (extractImageText env.fileData fileName)
  else Except.ok (unsupportedPre ++ fileType)

/-- The catch-block path of the handler (index.ts lines 311 to 337): when the
metadata-only update call is applied by the store and the request targets
this document row, the metadata is replaced by the failure metadata; the
content column is not touched; the response has HTTP status 200 and a
success-false body. -/
def softFailStep (env : IngestEnv) (req : IngestReq) (doc : DocRecord)
    (store : List ChunkRow) (msg : String) : DocRecord × List ChunkRow × HttpResp :=
  let doc1 := if req.documentId == doc.id && env.softUpdateApplied then
      { doc with metadata := failMeta msg env.now }
    else doc
  (doc1, store, ⟨200, RespBody.softFailBody extractionFailedMsg msg⟩)

/-- The rows of one bulk chunk insert, built by mapping chunks with their
index (index.ts lines 281 to 288). -/
def chunkRowsFrom (docId : String) : Nat → List (List Char) → List ChunkRow
  | _, [] => []
  | i, c :: cs =>
    { document_id := docId, content := c, chunk_index := i, chunk_size := c.length } ::
      chunkRowsFrom docId (i + 1) cs

/-- Embedding of the ingest handler serve body (index.ts lines 212 to 351)
acting on the document row with the given id and on the chunk store.  A
download error throws before any write and reaches the outer catch, which
returns status 500.  Otherwise the extractor dispatch runs; an exception from
it, or a document-update error (thrown as an Error), reaches the inner catch
(softFailStep).  On success the update replaces content and metadata of the
row whose id equals the request documentId, chunks are computed with bound
1000, and a nonempty chunk list is bulk inserted, with an insert error logged
and swallowed. -/
def ingest (env : IngestEnv) (req : IngestReq) (doc : DocRecord)
    (store : List ChunkRow) : DocRecord × List ChunkRow × HttpResp :=
  match env.downloadErr with
  | some e => (doc, store, ⟨500, RespBody.hardFailBody (downloadFailPre ++ e)⟩)
  | none =>
    match extractTextStep env req.fileType req.fileName with
    | Except.error msg => softFailStep env req doc store msg
    | Except.ok text =>
      match env.updateErr with
      | some u => softFailStep env req doc store (updateFailPre ++ u)
      | none =>
        let doc1 := if req.documentId == doc.id then
            { doc with content := some text,
                       metadata := successMeta env.now (jsWordCount text.toList) }
          else doc
        let cs := createTextChunks text.toList 1000
        let store1 := if 0 < cs.length && env.chunkInsertErr.isNone then
            store ++ chunkRowsFrom req.documentId 0 cs
          else store
        (doc1, store1, ⟨200, RespBody.okBody req.documentId text.length cs.length⟩)

/-- Folding a sequence of ingest invocations over a document row and the
chunk store. -/
def runIngest : DocRecord × List ChunkRow → List (IngestEnv × IngestReq) → DocRecord × List ChunkRow
  | s, [] => s
  | s, t :: ts => runIngest ((ingest t.1 t.2 s.1 s.2).1, (ingest t.1 t.2 s.1 s.2).2.1) ts

/-- True when the invocation takes the success path: download succeeded,
extraction returned a string, the content update raised no store error. -/
def invSucceeds (env : IngestEnv) (req : IngestReq) : Bool :=
  env.downloadErr.isNone &&
    (match extractTextStep env req.fileType req.fileName with
     | Except.ok _ => true
     | Except.error _ => false) &&
    env.updateErr.isNone

/-- True when the invocation reaches the inner catch block and the
metadata-only update there is applied by the store. -/
def invSoftApplies (env : IngestEnv) (req : IngestReq) : Bool :=
  env.downloadErr.isNone &&
    !((match extractTextStep env req.fileType req.fileName with
       | Except.ok _ => true
       | Except.error _ => false) && env.updateErr.isNone) &&
    env.softUpdateApplied

/-- The string the success path stores as content. -/
def extractedOf (env : IngestEnv) (req : IngestReq) : String :=
  match extractTextStep env req.fileType req.fileName with
  | Except.ok t => t
  | Except.error _ => emptyStr

/-- The message of the exception reaching the inner catch block, when the
invocation throws there. -/
def thrownOf (env : IngestEnv) (req : IngestReq) : String :=
  match extractTextStep env req.fileType req.fileName with
  | Except.error m => m
  | Except.ok _ =>
    match env.updateErr with
    | some u => updateFailPre ++ u
    | none => emptyStr

/-- Some message exactly when the invocation gets past the download and then
throws during the extract or update step. -/
def thrownOpt (env : IngestEnv) (req : IngestReq) : Option String :=
  match env.downloadErr with
  | some _ => none
  | none =>
    match extractTextStep env req.fileType req.fileName with
    | Except.error m => some m
    | Except.ok _ =>
      match env.updateErr with
      | some u => some (updateFailPre ++ u)
      | none => none

/-- The rows one invocation appends to the chunk store: the mapped chunk rows
on a success with a nonempty chunk list and no insert error, nothing
otherwise. -/
def insertedBatch (env : IngestEnv) (req : IngestReq) : List ChunkRow :=
  if invSucceeds env req then
    if 0 < (createTextChunks (extractedOf env req).toList 1000).length && env.chunkInsertErr.isNone then
      chunkRowsFrom req.documentId 0 (createTextChunks (extractedOf env req).toList 1000)
    else []
  else []

theorem ingest_doc_eq (env : IngestEnv) (req : IngestReq) (doc : DocRecord)
    (store : List ChunkRow) :
    (ingest env req doc store).1 =
      if req.documentId == doc.id && invSucceeds env req then
        { doc with content := some (extractedOf env req),
                   metadata := successMeta env.now (jsWordCount (extractedOf env req).toList) }
      else if req.documentId == doc.id && invSoftApplies env req then
        { doc with metadata := failMeta (thrownOf env req) env.now }
      else doc := by
  unfold ingest invSucceeds invSoftApplies extractedOf thrownOf softFailStep
  cases hD : env.downloadErr with
  | some e => simp
  | none =>
    cases hE : extractTextStep env req.fileType req.fileName with
    | error msg =>
      cases hSo : env.softUpdateApplied <;> simp [hSo]
    | ok text =>
      cases hU : env.updateErr with
      | some u => cases hSo : env.softUpdateApplied <;> simp [hSo]
      | none => simp

theorem ingest_store_eq (env : IngestEnv) (req : IngestReq) (doc : DocRecord)
    (store : List ChunkRow) :
    (ingest env req doc store).2.1 = store ++ insertedBatch env req := by
  unfold ingest insertedBatch invSucceeds extractedOf softFailStep
  cases hD : env.downloadErr with
  | some e => simp
  | none =>
    cases hE : extractTextStep env req.fileType req.fileName with
    | error msg => simp
    | ok text =>
      cases hU : env.updateErr with
      | some u => simp
      | none =>
        by_cases hc : (decide (0 < (createTextChunks text.toList 1000).length) &&
            env.chunkInsertErr.isNone) = true
        · simp only [String.toList] at hc
          simp [hc]
        · simp only [String.toList] at hc
          simp [hc]

theorem ingest_id (env : IngestEnv) (req : IngestReq) (doc : DocRecord)
    (store : List ChunkRow) : (ingest env req doc store).1.id = doc.id := by
  rw [ingest_doc_eq]
  split
  · rfl
  · split
    · rfl
    · rfl

/-- Concrete document id used for witnesses and counterexamples. -/
def docIdStr : String := "doc1"

/-- Concrete user id used for witnesses and counterexamples. -/
def userIdStr : String := "u1"

/-- Concrete file name used for witnesses and counterexamples. -/
def fileNameStr : String := "notes.txt"

/-- Concrete storage path used for witnesses and counterexamples. -/
def pathStr : String := "u1/notes.txt"

/-- Concrete text content used for witnesses and counterexamples. -/
def helloStr : String := "hello"

/-- Concrete timestamp of the first invocation. -/
def tOneStr : String := "2025-01-01T00:00:00.000Z"

/-- Concrete timestamp of the second invocation. -/
def tTwoStr : String := "2025-01-02T00:00:00.000Z"

/-- Concrete decode failure message. -/
def oopsStr : String := "decode failed"

/-- Concrete download failure message. -/
def boomStr : String := "object not found"

/-- Concrete unrecognized MIME type. -/
def mimeZip : String := "application/zip"

/-- Environment of a fully successful plain-text ingest. -/
def envOk : IngestEnv :=
  { downloadErr := none, fileData := { size := 100 },
    textDecode := Except.ok helloStr, pdfResult := emptyStr,
    docxResult := emptyStr, updateErr := none, softUpdateApplied := true,
    chunkInsertErr := none, now := tOneStr }

/-- Environment whose text decoding rejects, driving the inner catch block. -/
def envSoftFail : IngestEnv :=
  { envOk with textDecode := Except.error oopsStr, now := tTwoStr }

/-- Environment whose storage download fails. -/
def envDownFail : IngestEnv := { envOk with downloadErr := some boomStr }

/-- Concrete plain-text ingest request. -/
def reqTxt : IngestReq :=
  { documentId := docIdStr, filePath := pathStr, fileName := fileNameStr,
    fileType := mimeTextPlain }

/-- Concrete upload-time document record matching reqTxt. -/
def uploadEx : DocRecord :=
  uploadDoc docIdStr userIdStr fileNameStr fileNameStr mimeTextPlain 5 pathStr

/-- C7: when the storage download fails, the invocation mutates nothing (the
document row and the chunk store are returned unchanged) and the response is
a top-level error with HTTP status 500 embedding the download failure
message. -/
theorem download_failure_no_mutation (env : IngestEnv) (req : IngestReq) (doc : DocRecord)
    (store : List ChunkRow) (e : String) (h : env.downloadErr = some e) :
    ingest env req doc store =
      (doc, store, ⟨500, RespBody.hardFailBody (downloadFailPre ++ e)⟩) := by
  unfold ingest
  rw [h]

/-- Witness for C7 at a concrete failing download. -/
theorem download_failure_no_mutation_witness :
    envDownFail.downloadErr = some boomStr ∧
      ingest envDownFail reqTxt uploadEx [] =
        (uploadEx, [], ⟨500, RespBody.hardFailBody (downloadFailPre ++ boomStr)⟩) :=
  ⟨rfl, download_failure_no_mutation envDownFail reqTxt uploadEx [] boomStr rfl⟩

/-- C8: when the download succeeded but the extract or update step throws,
and the catch-block metadata update is applied by the store for the targeted
document, the metadata becomes processed false with the exception message and
a timestamp, the content column is untouched, the chunk store is untouched,
and the response has HTTP success status 200 with a success-false body
carrying the message as details. -/
theorem soft_failure_marks_document (env : IngestEnv) (req : IngestReq) (doc : DocRecord)
    (store : List ChunkRow) (msg : String)
    (hthrow : thrownOpt env req = some msg)
    (hsoft : env.softUpdateApplied = true)
    (hid : req.documentId = doc.id) :
    (ingest env req doc store).1.metadata = failMeta msg env.now ∧
      (ingest env req doc store).1.content = doc.content ∧
      (ingest env req doc store).2.1 = store ∧
      (ingest env req doc store).2.2 =
        ⟨200, RespBody.softFailBody extractionFailedMsg msg⟩ := by
  unfold thrownOpt at hthrow
  unfold ingest softFailStep
  cases hD : env.downloadErr with
  | some e => rw [hD] at hthrow; simp at hthrow
  | none =>
    rw [hD] at hthrow
    cases hE : extractTextStep env req.fileType req.fileName with
    | error m =>
      rw [hE] at hthrow
      simp only [Option.some.injEq] at hthrow
      subst hthrow
      simp [hid, hsoft]
    | ok text =>
      rw [hE] at hthrow
      cases hU : env.updateErr with
      | some u =>
        rw [hU] at hthrow
        simp only [Option.some.injEq] at hthrow
        subst hthrow
        simp [hid, hsoft]
      | none => rw [hU] at hthrow; simp at hthrow

/-- Witness for C8 at a concrete rejecting text decode. -/
theorem soft_failure_marks_document_witness :
    thrownOpt envSoftFail reqTxt = some oopsStr ∧
      ((ingest envSoftFail reqTxt uploadEx []).1.metadata = failMeta oopsStr envSoftFail.now ∧
        (ingest envSoftFail reqTxt uploadEx []).1.content = uploadEx.content ∧
        (ingest envSoftFail reqTxt uploadEx []).2.1 = [] ∧
        (ingest envSoftFail reqTxt uploadEx []).2.2 =
          ⟨200, RespBody.softFailBody extractionFailedMsg oopsStr⟩) :=
  ⟨by decide,
   soft_failure_marks_document envSoftFail reqTxt uploadEx [] oopsStr (by decide) (by decide)
     (by decide)⟩

/-- C9: for a declared MIME type that is none of the four recognized types
and does not start with the image prefix, extraction returns exactly the
unsupported-file-type string with the declared type appended, as a normal
value: no exception passes the extraction boundary. -/
theorem unsupported_type_fallback (env : IngestEnv) (fileType fileName : String)
    (h1 : fileType ≠ mimeTextPlain) (h2 : fileType ≠ mimePdf)
    (h3 : fileType ≠ mimeDocx) (h4 : fileType ≠ mimePptx)
    (h5 : leadsWith mimeImagePre.toList fileType.toList = false) :
    extractTextStep env fileType fileName = Except.ok (unsupportedPre ++ fileType) := by
  unfold extractTextStep
  rw [if_neg h1, if_neg h2, if_neg h3, if_neg h4,
    if_neg (fun hcon => by
      rw [hcon] at h5
      exact Bool.noConfusion h5)]

/-- Witness for C9 at the zip MIME type. -/
theorem unsupported_type_fallback_witness :
    (mimeZip ≠ mimeTextPlain ∧ leadsWith mimeImagePre.toList mimeZip.toList = false) ∧
      extractTextStep envOk mimeZip fileNameStr = Except.ok (unsupportedPre ++ mimeZip) :=
  ⟨⟨by decide, by decide⟩,
   unsupported_type_fallback envOk mimeZip fileNameStr (by decide) (by decide) (by decide)
     (by decide) (by decide)⟩

theorem succeeds_soft_exclusive (env : IngestEnv) (req : IngestReq) :
    ¬(invSucceeds env req = true ∧ invSoftApplies env req = true) := by
  rintro ⟨h1, h2⟩
  simp only [invSucceeds, Bool.and_eq_true] at h1
  simp only [invSoftApplies, Bool.and_eq_true] at h2
  have hb := h1.1.2
  have hc := h1.2
  have hd := h2.1.2
  rw [hb, hc] at hd
  simp at hd

/-- The frame part of the metadata-replacement claim: after the update the
upload-time metadata keys are gone and the non-updated columns of the row are
unchanged. -/
def frameOk (d d1 : DocRecord) : Prop :=
  d1.metadata.original_name = none ∧ d1.metadata.storage_path = none ∧
    d1.id = d.id ∧ d1.user_id = d.user_id ∧ d1.title = d.title ∧
    d1.file_name = d.file_name ∧ d1.file_type = d.file_type ∧
    d1.file_size = d.file_size

/-- C10: on the success path the whole metadata object of the targeted row is
replaced by exactly the success keys (processed, processed_at, word_count),
and on the applied soft-failure path by exactly the failure keys (processed,
processing_error, processed_at); in both cases the upload-time keys
original_name and storage_path are gone and the other columns of the row are
unchanged. -/
theorem update_replaces_metadata (env : IngestEnv) (req : IngestReq) (doc : DocRecord)
    (store : List ChunkRow) :
    ((req.documentId == doc.id && invSucceeds env req) = true →
      (ingest env req doc store).1.metadata =
          successMeta env.now (jsWordCount (extractedOf env req).toList) ∧
        frameOk doc (ingest env req doc store).1) ∧
    ((req.documentId == doc.id && invSoftApplies env req) = true →
      (ingest env req doc store).1.metadata = failMeta (thrownOf env req) env.now ∧
        frameOk doc (ingest env req doc store).1) := by
  rw [ingest_doc_eq]
  constructor
  · intro h
    rw [if_pos h]
    exact ⟨rfl, rfl, rfl, rfl, rfl, rfl, rfl, rfl, rfl⟩
  · intro h
    have hns : (req.documentId == doc.id && invSucceeds env req) = false := by
      rcases Bool.and_eq_true_iff.mp h with ⟨hdm, hsoft⟩
      cases hsucc : invSucceeds env req with
      | false => simp [hsucc]
      | true => exact absurd ⟨hsucc, hsoft⟩ (succeeds_soft_exclusive env req)
    rw [if_neg (by simp [hns]), if_pos h]
    exact ⟨rfl, rfl, rfl, rfl, rfl, rfl, rfl, rfl, rfl⟩

/-- Witness for C10: the success conclusion at a successful plain-text ingest
and the soft-failure conclusion at a rejecting text decode. -/
theorem update_replaces_metadata_witness :
    ((ingest envOk reqTxt uploadEx []).1.metadata =
        successMeta envOk.now (jsWordCount (extractedOf envOk reqTxt).toList) ∧
      frameOk uploadEx (ingest envOk reqTxt uploadEx []).1) ∧
    ((ingest envSoftFail reqTxt uploadEx []).1.metadata =
        failMeta (thrownOf envSoftFail reqTxt) envSoftFail.now ∧
      frameOk uploadEx (ingest envSoftFail reqTxt uploadEx []).1) :=
  ⟨(update_replaces_metadata envOk reqTxt uploadEx []).1 (by decide),
   (update_replaces_metadata envSoftFail reqTxt uploadEx []).2 (by decide)⟩

/-- The metadata marks a clean processed state: processed true and no
processing error. -/
def processedCleanly (m : Metadata) : Prop :=
  m.processed = some true ∧ m.processing_error = none

/-- The invariant of the content claim on one document row: the content
column is non-null exactly when the metadata marks a clean processed
state. -/
def contentMatchesStatus (d : DocRecord) : Prop :=
  d.content ≠ none ↔ processedCleanly d.metadata

instance (d : DocRecord) : Decidable (contentMatchesStatus d) := by
  unfold contentMatchesStatus processedCleanly
  infer_instance

/-- The invocation applies the success update to the document with the given
id. -/
def appliesSuccessTo (docId : String) (t : IngestEnv × IngestReq) : Bool :=
  t.2.documentId == docId && invSucceeds t.1 t.2

/-- The invocation applies the soft-failure metadata update to the document
with the given id. -/
def appliesFailTo (docId : String) (t : IngestEnv × IngestReq) : Bool :=
  t.2.documentId == docId && invSoftApplies t.1 t.2

/-- No invocation of the trace that applies the soft-failure path to the
given document comes after one that succeeds on it. -/
def noFailAfterSuccess (docId : String) : List (IngestEnv × IngestReq) → Bool
  | [] => true
  | t :: ts =>
    (!appliesSuccessTo docId t || ts.all (fun u => !appliesFailTo docId u)) &&
      noFailAfterSuccess docId ts

theorem runIngest_contentMatches (ts : List (IngestEnv × IngestReq)) :
    ∀ (d : DocRecord) (st : List ChunkRow),
      contentMatchesStatus d →
      (d.content ≠ none → ts.all (fun u => !appliesFailTo d.id u) = true) →
      noFailAfterSuccess d.id ts = true →
      contentMatchesStatus (runIngest (d, st) ts).1 := by
  induction ts with
  | nil =>
    intro d st h _ _
    exact h
  | cons t ts ih =>
    intro d st h hnf hgood
    simp only [noFailAfterSuccess, Bool.and_eq_true] at hgood
    obtain ⟨hgood1, hgood2⟩ := hgood
    have hid := ingest_id t.1 t.2 d st
    have hdoc := ingest_doc_eq t.1 t.2 d st
    simp only [runIngest]
    by_cases hS : appliesSuccessTo d.id t = true
    · have hS2 : (t.2.documentId == d.id && invSucceeds t.1 t.2) = true := hS
      rw [if_pos hS2] at hdoc
      have hts : ts.all (fun u => !appliesFailTo d.id u) = true := by
        rw [hS] at hgood1
        simpa using hgood1
      apply ih
      · rw [hdoc]
        unfold contentMatchesStatus processedCleanly successMeta
        simp
      · intro _
        rw [hid]
        exact hts
      · rw [hid]; exact hgood2
    · by_cases hF : appliesFailTo d.id t = true
      · have hF2 : (t.2.documentId == d.id && invSoftApplies t.1 t.2) = true := hF
        have hS2 : (t.2.documentId == d.id && invSucceeds t.1 t.2) = false := by
          cases hv : (t.2.documentId == d.id && invSucceeds t.1 t.2) with
          | false => rfl
          | true => exact absurd hv hS
        rw [if_neg (by simp [hS2]), if_pos hF2] at hdoc
        have hcnone : d.content = none := by
          by_contra hcn
          have hall := hnf hcn
          simp only [List.all_cons, Bool.and_eq_true] at hall
          obtain ⟨hh, _⟩ := hall
          rw [hF] at hh
          simp at hh
        apply ih
        · rw [hdoc]
          unfold contentMatchesStatus processedCleanly failMeta
          simp [hcnone]
        · intro hcn
          rw [hdoc] at hcn
          simp [hcnone] at hcn
        · rw [hid]; exact hgood2
      · have hS2 : (t.2.documentId == d.id && invSucceeds t.1 t.2) = false := by
          cases hv : (t.2.documentId == d.id && invSucceeds t.1 t.2) with
          | false => rfl
          | true => exact absurd hv hS
        have hF2 : (t.2.documentId == d.id && invSoftApplies t.1 t.2) = false := by
          cases hv : (t.2.documentId == d.id && invSoftApplies t.1 t.2) with
          | false => rfl
          | true => exact absurd hv hF
        rw [if_neg (by simp [hS2]), if_neg (by simp [hF2])] at hdoc
        apply ih
        · rw [hdoc]; exact h
        · intro hcn
          rw [hdoc] at hcn
          have hall := hnf hcn
          simp only [List.all_cons, Bool.and_eq_true] at hall
          rw [hid]
          exact hall.2
        · rw [hid]; exact hgood2

/-- C4 (amended): in every document state reachable from the upload-time
record by a sequence of ingest invocations in which no invocation applying
the soft-failure path to this document comes after one succeeding on it, the
content column is non-null exactly when the metadata marks processed true
with no processing error.  Amendment: over arbitrary sequences the claim
fails, because the soft-failure update rewrites only the metadata and leaves
content written by an earlier successful ingest in place. -/
theorem content_status_invariant (docId userId origName storedName fType : String)
    (fSize : Nat) (path : String) (ts : List (IngestEnv × IngestReq))
    (hgood : noFailAfterSuccess docId ts = true) :
    contentMatchesStatus
      (runIngest (uploadDoc docId userId origName storedName fType fSize path, []) ts).1 := by
  apply runIngest_contentMatches
  · unfold contentMatchesStatus processedCleanly uploadDoc
    simp
  · intro hc
    exact absurd rfl hc
  · exact hgood

/-- Witness for C4: a soft failure followed by a success is an admissible
order, and the invariant holds in the resulting state. -/
theorem content_status_invariant_witness :
    noFailAfterSuccess docIdStr [(envSoftFail, reqTxt), (envOk, reqTxt)] = true ∧
      contentMatchesStatus
        (runIngest (uploadDoc docIdStr userIdStr fileNameStr fileNameStr mimeTextPlain 5 pathStr, [])
          [(envSoftFail, reqTxt), (envOk, reqTxt)]).1 :=
  ⟨by decide,
   content_status_invariant docIdStr userIdStr fileNameStr fileNameStr mimeTextPlain 5 pathStr
     [(envSoftFail, reqTxt), (envOk, reqTxt)] (by decide)⟩

/-- C4 counterexample: a successful ingest followed by a soft-failing ingest
of the same document leaves the content of the first ingest in place while
the metadata marks processed false with an error, violating the stated
equivalence in a reachable state. -/
theorem content_status_counterexample :
    ¬ contentMatchesStatus
        (runIngest (uploadEx, []) [(envOk, reqTxt), (envSoftFail, reqTxt)]).1 := by decide

theorem runIngest_store (ts : List (IngestEnv × IngestReq)) :
    ∀ (d : DocRecord) (st : List ChunkRow),
      (runIngest (d, st) ts).2 = st ++ concatAll (ts.map (fun t => insertedBatch t.1 t.2)) := by
  induction ts with
  | nil => intro d st; simp [runIngest, concatAll]
  | cons t ts ih =>
    intro d st
    simp only [runIngest, List.map_cons, concatAll]
    rw [ih, ingest_store_eq, List.append_assoc]

/-- The chunk_index ordinals of the stored chunks of one document, in
insertion order. -/
def docIdxOf (docId : String) (store : List ChunkRow) : List Nat :=
  (store.filter (fun c => c.document_id == docId)).map (fun c => c.chunk_index)

theorem docIdxOf_append (docId : String) (s1 s2 : List ChunkRow) :
    docIdxOf docId (s1 ++ s2) = docIdxOf docId s1 ++ docIdxOf docId s2 := by
  simp [docIdxOf, List.filter_append]

theorem chunkRowsFrom_docid (docId : String) (cs : List (List Char)) :
    ∀ i, ∀ row ∈ chunkRowsFrom docId i cs, row.document_id = docId := by
  induction cs with
  | nil => intro i row hrow; simp [chunkRowsFrom] at hrow
  | cons c cs ih =>
    intro i row hrow
    simp only [chunkRowsFrom, List.mem_cons] at hrow
    rcases hrow with h | h
    · rw [h]
    · exact ih (i + 1) row h

theorem chunkRowsFrom_length (docId : String) (cs : List (List Char)) :
    ∀ i, (chunkRowsFrom docId i cs).length = cs.length := by
  induction cs with
  | nil => intro i; rfl
  | cons c cs ih =>
    intro i
    simp only [chunkRowsFrom, List.length_cons, ih (i + 1)]

theorem chunkRowsFrom_idx (docId : String) (cs : List (List Char)) :
    ∀ i, (chunkRowsFrom docId i cs).map (fun c => c.chunk_index) = List.range' i cs.length := by
  induction cs with
  | nil => intro i; rfl
  | cons c cs ih =>
    intro i
    simp only [chunkRowsFrom, List.map_cons, List.length_cons, List.range'_succ]
    rw [ih (i + 1)]

theorem docIdxOf_batch (docId : String) (t : IngestEnv × IngestReq) :
    docIdxOf docId (insertedBatch t.1 t.2) =
      if t.2.documentId == docId then
        List.range (insertedBatch t.1 t.2).length
      else [] := by
  by_cases hdm : (t.2.documentId == docId) = true
  · rw [if_pos hdm]
    have hdm2 : t.2.documentId = docId := by simpa using hdm
    subst hdm2
    unfold insertedBatch docIdxOf
    split
    · split
      · have hfil : (chunkRowsFrom t.2.documentId 0
            (createTextChunks (extractedOf t.1 t.2).toList 1000)).filter
              (fun c => c.document_id == t.2.documentId) =
            chunkRowsFrom t.2.documentId 0
              (createTextChunks (extractedOf t.1 t.2).toList 1000) := by
          apply List.filter_eq_self.mpr
          intro row hrow
          rw [chunkRowsFrom_docid _ _ 0 row hrow]
          simp
        rw [hfil, chunkRowsFrom_idx, chunkRowsFrom_length, List.range_eq_range']
      · simp [docIdxOf]
    · simp [docIdxOf]
  · rw [if_neg hdm]
    unfold insertedBatch docIdxOf
    split
    · split
      · have hfil : (chunkRowsFrom t.2.documentId 0
            (createTextChunks (extractedOf t.1 t.2).toList 1000)).filter
              (fun c => c.document_id == docId) = [] := by
          apply List.filter_eq_nil.mpr
          intro row hrow
          rw [chunkRowsFrom_docid _ _ 0 row hrow]
          simpa using hdm
        rw [hfil]
        rfl
      · rfl
    · rfl

theorem docIdx_concat_none (docId : String) (ts : List (IngestEnv × IngestReq))
    (h : ∀ u ∈ ts, (u.2.documentId == docId) = false) :
    docIdxOf docId (concatAll (ts.map (fun t => insertedBatch t.1 t.2))) = [] := by
  induction ts with
  | nil => simp [docIdxOf, concatAll]
  | cons t ts ih =>
    simp only [List.map_cons, concatAll]
    rw [docIdxOf_append, docIdxOf_batch,
      if_neg (by simp [h t (List.mem_cons_self t ts)]), List.nil_append]
    exact ih (fun u hu => h u (List.mem_cons_of_mem t hu))

theorem concatIdx_range (docId : String) (ts : List (IngestEnv × IngestReq)) :
    ts.countP (fun t => t.2.documentId == docId) ≤ 1 →
    ∃ n, docIdxOf docId (concatAll (ts.map (fun t => insertedBatch t.1 t.2))) =
      List.range n := by
  induction ts with
  | nil => intro _; exact ⟨0, by simp [docIdxOf, concatAll]⟩
  | cons t ts ih =>
    intro honce
    simp only [List.map_cons, concatAll]
    rw [docIdxOf_append]
    by_cases hdm : (t.2.documentId == docId) = true
    · rw [List.countP_cons_of_pos (fun u : IngestEnv × IngestReq => u.2.documentId == docId) ts hdm] at honce
      have hcount : ts.countP (fun u => u.2.documentId == docId) = 0 := by omega
      have hz : ∀ u ∈ ts, (u.2.documentId == docId) = false := by
        intro u hu
        have hnp := List.countP_eq_zero.mp hcount u hu
        simpa using hnp
      rw [docIdx_concat_none docId ts hz, docIdxOf_batch, if_pos hdm, List.append_nil]
      exact ⟨_, rfl⟩
    · rw [docIdxOf_batch, if_neg hdm, List.nil_append]
      apply ih
      rw [List.countP_cons_of_neg (fun u : IngestEnv × IngestReq => u.2.documentId == docId) ts hdm] at honce
      exact honce

/-- C5 (amended): provided the trace invokes ingest at most once with the
given documentId, the chunk_index ordinals stored for that document are
exactly 0, 1, ..., n - 1 in order: contiguous from 0 and strictly
increasing.  Amendment: over arbitrary traces the claim fails, because a
repeated ingest for the same document inserts a second batch whose ordinals
restart at 0. -/
theorem chunk_ordinals_contiguous (docId : String) (d : DocRecord)
    (ts : List (IngestEnv × IngestReq))
    (honce : ts.countP (fun t => t.2.documentId == docId) ≤ 1) :
    docIdxOf docId (runIngest (d, []) ts).2 =
      List.range (docIdxOf docId (runIngest (d, []) ts).2).length := by
  rw [runIngest_store, List.nil_append]
  obtain ⟨n, hn⟩ := concatIdx_range docId ts honce
  rw [hn, List.length_range]

/-- Witness for C5 at a single successful plain-text ingest, which stores one
chunk with ordinal 0. -/
theorem chunk_ordinals_contiguous_witness :
    [(envOk, reqTxt)].countP (fun t => t.2.documentId == docIdStr) ≤ 1 ∧
      docIdxOf docIdStr (runIngest (uploadEx, []) [(envOk, reqTxt)]).2 =
        List.range (docIdxOf docIdStr (runIngest (uploadEx, []) [(envOk, reqTxt)]).2).length :=
  ⟨by decide, chunk_ordinals_contiguous docIdStr uploadEx [(envOk, reqTxt)] (by decide)⟩

/-- C5 counterexample: ingesting the same document twice stores the ordinals
0, 0, which are neither strictly increasing nor the contiguous sequence
starting at 0 of that length, so the claim over arbitrary invocation
sequences is false. -/
theorem chunk_ordinals_counterexample :
    docIdxOf docIdStr (runIngest (uploadEx, []) [(envOk, reqTxt), (envOk, reqTxt)]).2 = 0 :: 0 :: [] ∧
      ¬ (docIdxOf docIdStr (runIngest (uploadEx, []) [(envOk, reqTxt), (envOk, reqTxt)]).2 =
          List.range
            (docIdxOf docIdStr
              (runIngest (uploadEx, []) [(envOk, reqTxt), (envOk, reqTxt)]).2).length) := by
  decide
